import Mathlib

/-!
Verification of the BLISS corpus-partitioning / key-encoding / scheduling core.

Shallow embedding of:
 - `src/partition/range.hpp` (struct `bliss::partition::range<T>`), with the
   element type `T` instantiated at `int64_t` (a signed integral domain) and
   the C++ `size_t` modelled as `Nat` values reduced modulo `2^64`;
 - `src/index/indexing.cpp` (the scalar key-encoding engine
   `computeKeys<SCALAR>` and the offset prefix-sum in `main`), machine words
   modelled as `Nat` with explicit `% 2^w` where C++ wraps;
 - `src/taskrunner/dynamic_omp_runner.hpp` (`DynamicOMPRunner`), as a
   nondeterministic interleaving transition system; the thread-safe queue it
   uses lives in `concurrent/lockfree_queue.hpp` which is not part of the
   sources, so the queue operations are modelled from the specification.
-/

namespace BLISS

/-! ## Range (src/partition/range.hpp)

`range<T>` with `T = int64_t`.  The C++ field `end` is a Lean keyword, so the
Lean field is named `stop`; everything else keeps the source names.  None of
the operations modelled here perform arithmetic that can overflow `int64_t`
(they only use `min`, `max` and comparisons), except `size()` and
`align_to_page`, where the `size_t` casts are modelled explicitly modulo
`2^64`. -/

structure Range where
  start : Int
  stop : Int
  overlap : Int
  deriving DecidableEq, Repr

namespace Range

/-- `range::isDisjoint`: `(this->start > other.end) || (this->end < other.start)`. -/
def isDisjoint (a b : Range) : Bool :=
  decide (b.stop < a.start) || decide (a.stop < b.start)

/-- `range::isAdjacent`: `(this->start == other.end) || (this->end == other.start)`. -/
def isAdjacent (a b : Range) : Bool :=
  decide (a.start = b.stop) || decide (a.stop = b.start)

/-- `range::merge(first, second)`: copies `first` and runs the in-place
`merge`, which throws `std::invalid_argument` on disjoint inputs (modelled as
`none`), otherwise picks `other.overlap` iff `end < other.end`, then takes
`min` of starts and `max` of ends. -/
def merge (a b : Range) : Option Range :=
  if isDisjoint a b then none
  else some ⟨min a.start b.start, max a.stop b.stop,
             if a.stop < b.stop then b.overlap else a.overlap⟩

/-- `range::intersect(first, second)`: copies `first` and runs the in-place
`intersect`: `overlap = (end > other.end) ? other.overlap : overlap`, then
`start = max(start, other.start)`, `end = min(end, other.end)`, and finally
the clamp `start = min(start, end)`.  Never throws. -/
def intersect (a b : Range) : Range :=
  let ov := if b.stop < a.stop then b.overlap else a.overlap
  let s := max a.start b.start
  let e := min a.stop b.stop
  ⟨min s e, e, ov⟩

/-- `range::size()` for integral `T`:
`static_cast<size_t>(end) - static_cast<size_t>(start)`, i.e. the difference
of the two values in arithmetic modulo `2^64`. -/
def size (r : Range) : Int :=
  (r.stop - r.start) % (2 ^ 64 : Int)

/-- Error outcomes of `range::align_to_page`. -/
inductive AlignError where
  | invalidPageSize
  | rangeUnderflow
  deriving DecidableEq, Repr

/-- Conversion of an `int64_t` value to `size_t` (C++ usual arithmetic
conversion applied to `start / page_size`): the value modulo `2^64`. -/
def toSizeT (z : Int) : Nat :=
  (z % (2 ^ 64 : Int)).toNat

/-- Reduction of an integer into the `int64_t` value range (two's complement
wrap-around), used where a `size_t` result is stored into a `TT = int64_t`. -/
def wrap64 (z : Int) : Int :=
  (z + 2 ^ 63) % 2 ^ 64 - 2 ^ 63

/-- `std::numeric_limits<int64_t>::lowest()`. -/
def int64Lowest : Int := -(2 ^ 63)

/-- `range::align_to_page(start, page_size)` with `TT = int64_t` and
`page_size : size_t`.  Because `page_size` has type `size_t`, the C++
expression `(start / page_size) * page_size` converts `start` to `size_t`
first; the quotient-times-pagesize is computed in unsigned arithmetic and the
result is stored back into `TT` (wrap).  The guard `block_start > start` and
the underflow test `(block_start - lowest) < page_size` are modelled with the
same conversions (the subtraction wraps in `TT`, then the comparison against
the `size_t` right-hand side converts the left-hand side to `size_t`). -/
def align_to_page (start : Int) (page_size : Nat) : Except AlignError Int :=
  if page_size = 0 then .error .invalidPageSize
  else
    let block_start : Int := wrap64 ((toSizeT start / page_size) * page_size : Nat)
    if start < block_start then
      if toSizeT (wrap64 (block_start - int64Lowest)) < page_size then
        .error .rangeUnderflow
      else
        .ok (wrap64 (block_start - (page_size : Int)))
    else
      .ok block_start

end Range

/-! ## Key-encoding engine (src/index/indexing.cpp)

The constants are the `constexpr` values of the source: `WordType = uint16_t`,
`KeyType = uint64_t`, `N_K = 21`, `N_BITS = 3`.  Packed words and keys are
`Nat` values; every C++ operation that can wrap (`uint64_t` shifts and the
`uint8_t` cursor increments) carries an explicit `% 2^w`.  Each access
`seq[i]` of the `std::vector` is modelled by `List.getD` together with a
recorded out-of-bounds flag, so that the safety claims about reads past
`seq.size()` are statable. -/

def WORD_BITS : Nat := 16
def KEY_BITS : Nat := 64
def N_K : Nat := 21
def N_BITS : Nat := 3
def N_PACKED_CHARS : Nat := WORD_BITS / N_BITS
def N_PADDING_BITS : Nat := WORD_BITS % N_BITS
def PADDING_MASK : Nat := (2 ^ WORD_BITS - 1) >>> N_PADDING_BITS
def DIV : Nat := N_K / N_PACKED_CHARS
def REM : Nat := N_K % N_PACKED_CHARS
def REM_MASK : Nat :=
  if REM ≠ 0 then (2 ^ WORD_BITS - 1) >>> (WORD_BITS - REM * N_BITS) else 0
def SIG_BITS : Nat := WORD_BITS - N_PADDING_BITS
def CHAR_MASK : Nat := (2 ^ WORD_BITS - 1) >>> (WORD_BITS - N_BITS)

/-- State of the incremental slide loop of `computeKeys<SCALAR>`: the current
key, the word cursor (`uint8_t last_block`, `uint8_t last_block_pos`), the
cached current word (`KeyType block`), the keys written so far through the
output iterator, whether any `seq[i]` access had `i ≥ seq.size()`, and
whether the `ERROR(...)` branch (cursor past the array) was taken. -/
structure KeyState where
  key : Nat
  last_block : Nat
  last_block_pos : Nat
  block : Nat
  keys : List Nat
  oob : Bool
  err : Bool
  deriving DecidableEq, Repr

/-- The `for (j = 1; j < key_count; j++)` loop of `computeKeys<SCALAR>`,
with the remaining iteration count as fuel.  Each iteration evicts the
oldest character (`key >> N_BITS`), extracts the next character from the
cached word, ORs it into the top character slot, writes the key, and then
advances the `uint8_t` cursor (wrapping modulo `2^8` as in C++); crossing a
word boundary reloads `block`, guarded by the `last_block > seq.size()`
(error + break) and `last_block == seq.size()` (break) checks. -/
def slideSteps (seq : List Nat) : Nat → KeyState → KeyState
  | 0, s => s
  | fuel + 1, s =>
    let temp1 := (s.block >>> (s.last_block_pos * N_BITS)) &&& CHAR_MASK
    let temp2 := (temp1 <<< ((N_K - 1) * N_BITS)) % 2 ^ KEY_BITS
    let key := (s.key >>> N_BITS) ||| temp2
    let keys := s.keys ++ [key]
    let pos := (s.last_block_pos + 1) % 2 ^ 8
    if pos % N_PACKED_CHARS = 0 then
      let lb := (s.last_block + 1) % 2 ^ 8
      if seq.length < lb then
        ⟨key, lb, 0, s.block, keys, s.oob, true⟩
      else if lb = seq.length then
        ⟨key, lb, 0, s.block, keys, s.oob, s.err⟩
      else
        slideSteps seq fuel
          ⟨key, lb, 0, seq.getD lb 0, keys, s.oob || decide (seq.length ≤ lb), s.err⟩
    else
      slideSteps seq fuel ⟨key, s.last_block, pos, s.block, keys, s.oob, s.err⟩

/-- Seed phase of `computeKeys<SCALAR>` (lines 177-193): OR together the
first `DIV` whole words shifted into place (the words are NOT masked; the
source comment assumes their padding bits are already zero), then OR in the
`REM_MASK`-masked remainder word if `REM > 0`.  The second component records
whether any of these `seq[j]` reads was out of bounds. -/
def seedKey (seq : List Nat) : Nat × Bool :=
  let s0 : Nat × Bool :=
    (List.range DIV).foldl
      (fun a j =>
        (a.1 ||| (seq.getD j 0 <<< (j * SIG_BITS)) % 2 ^ KEY_BITS,
         a.2 || decide (seq.length ≤ j)))
      (0, false)
  if 0 < REM then
    (s0.1 ||| ((seq.getD DIV 0 &&& REM_MASK) <<< (DIV * SIG_BITS)) % 2 ^ KEY_BITS,
     s0.2 || decide (seq.length ≤ DIV))
  else s0

/-- `computeKeys<SCALAR>(seq, key_count, key_iter)`: the seed key is written
unconditionally (before `key_count` is ever consulted), the cursor is set to
word `DIV`, slot `REM`, the word `seq[DIV]` is cached into `block`, and the
slide loop produces the remaining `key_count - 1` keys. -/
def computeKeys (seq : List Nat) (key_count : Nat) : KeyState :=
  slideSteps seq (key_count - 1)
    ⟨(seedKey seq).1, DIV, REM, seq.getD DIV 0, [(seedKey seq).1],
     (seedKey seq).2 || decide (seq.length ≤ DIV), false⟩

/-- The `c`-th character (0-based) of a packed sequence: `N_BITS` bits taken
from slot `c % N_PACKED_CHARS` of word `c / N_PACKED_CHARS`. -/
def charAt (seq : List Nat) (c : Nat) : Nat :=
  (seq.getD (c / N_PACKED_CHARS) 0 >>> ((c % N_PACKED_CHARS) * N_BITS)) &&& CHAR_MASK

/-- The key the specification assigns to window position `j`: the `N_K`
consecutive characters starting at `j`, earliest character in the
lowest-order bit group. -/
def windowKey (seq : List Nat) (j : Nat) : Nat :=
  Finset.sum (Finset.range N_K) fun i => charAt seq (j + i) * 2 ^ (i * N_BITS)

/-- Well-formed packed sequence of character length `L`: word count
`ceil(L / N_PACKED_CHARS)`, padding bits of every word zero (each word fits
in `SIG_BITS` bits), and the unused trailing character slots of the final
word zero. -/
def wellFormed (seq : List Nat) (L : Nat) : Prop :=
  seq.length = (L + N_PACKED_CHARS - 1) / N_PACKED_CHARS ∧
  (∀ w ∈ seq, w < 2 ^ SIG_BITS) ∧
  ∀ c, c < seq.length * N_PACKED_CHARS → L ≤ c → charAt seq c = 0

instance (seq : List Nat) (L : Nat) : Decidable (wellFormed seq L) := by
  unfold wellFormed
  exact inferInstance

/-- The loop-invariant state of the slide at window position `k` (for
`1 ≤ k`): the key for window `k - 1` has just been written, the cursor sits
on character `k + 20` (word `(k+20)/5`, slot `(k+20)%5`), the cached word is
that word, and the keys written so far are the first `k` window keys. -/
def stState (seq : List Nat) (k : Nat) : KeyState :=
  ⟨windowKey seq (k - 1), (k + 20) / 5, (k + 20) % 5, seq.getD ((k + 20) / 5) 0,
   (List.range k).map (windowKey seq), false, false⟩

/-! ## Offset prefix sum (src/index/indexing.cpp, main)

`offsets[0] = 0` and
`offsets[i] = offsets[i-1] + static_cast<ReadBaseCountType>(lengths[i-1] - N_K + 1)`:
the subtraction happens in (promoted) signed arithmetic and the cast to the
unsigned 64-bit `ReadBaseCountType` wraps negative values around `2^64`, as
does the running addition.  The window width is kept as a parameter `nK`
(the source instantiates it with the constexpr `N_K = 21`). -/

def keyCountU64 (len nK : Nat) : Nat :=
  ((((len : Int) - (nK : Int) + 1)) % (2 ^ 64 : Int)).toNat

def scanKeyCountsFrom (nK : Nat) : Nat → List Nat → List Nat
  | _, [] => []
  | o, len :: rest =>
    let o2 := (o + keyCountU64 len nK) % 2 ^ 64
    o2 :: scanKeyCountsFrom nK o2 rest

/-- The offsets array computed by `main` for the given per-unit lengths. -/
def scanKeyCounts (lengths : List Nat) (nK : Nat) : List Nat :=
  0 :: scanKeyCountsFrom nK 0 lengths

/-! ### Helper facts about all-zero and almost-all-zero sequences -/

/-- The 257-word sequence whose first word is 1 and whose remaining 256
words are 0; its character length 1281 makes the slide cursor reach word
index 256, which overflows the `uint8_t` cursor. -/
def seqWrap : List Nat := 1 :: List.replicate 256 0

/-! ## Concurrent task queue and dynamic scheduler
(src/taskrunner/dynamic_omp_runner.hpp)

The queue class `bliss::concurrent::ThreadSafeQueue` used by
`DynamicOMPRunner` lives in `concurrent/lockfree_queue.hpp`, which is not
among the sources; its operations are modelled from the specification
(section 4.3).  The runner's `operator()` is modelled as a nondeterministic
interleaving transition system: one generator thread spawns an OpenMP task
per `canPop()` poll, and each spawned task performs one atomic `waitAndPop`
and, on success, executes the item and increments the counter slot of the
thread it ran on. -/

/-- Modelled from the spec: the `ThreadSafeQueue` of
`concurrent/lockfree_queue.hpp` (absent from the sources) — a FIFO list of
task identifiers plus the `Open`/`Draining` flag (`pushEnabled`). -/
structure TSQueue where
  items : List Nat
  pushEnabled : Bool
  deriving DecidableEq, Repr

namespace TSQueue

/-- Modelled from the spec: `waitAndPush` appends and succeeds iff the queue
is still open (the queue is effectively unbounded, so it never blocks). -/
def waitAndPush (q : TSQueue) (t : Nat) : TSQueue × Bool :=
  if q.pushEnabled then (⟨q.items ++ [t], q.pushEnabled⟩, true) else (q, false)

/-- Modelled from the spec: `disablePush` irreversibly moves the queue to
the draining state. -/
def disablePush (q : TSQueue) : TSQueue := ⟨q.items, false⟩

/-- Modelled from the spec: `canPop()` is true while the queue is non-empty
or still open (more items may yet arrive). -/
def canPop (q : TSQueue) : Bool := !q.items.isEmpty || q.pushEnabled

end TSQueue

/-- `DynamicOMPRunner::addTask` delegates to `waitAndPush`. -/
def addTask (q : TSQueue) (t : Nat) : TSQueue × Bool := q.waitAndPush t

/-- `DynamicOMPRunner::disableAdd` delegates to `disablePush`. -/
def disableAdd (q : TSQueue) : TSQueue := q.disablePush

/-- State of one execution of `DynamicOMPRunner::operator()`: the queue, the
count of OpenMP tasks spawned by the single generator thread but not yet
executed, whether the generator's `while (q.canPop())` loop is still
running, the per-worker counters `proc` (allocated by the source with
`new size_t[nThreads]` and never initialised, so they start at arbitrary
values), and how many times each submitted task has been executed. -/
structure RunnerState where
  q : TSQueue
  pending : Nat
  loopActive : Bool
  proc : List Nat
  execCount : Nat → Nat

/-- `++(proc[tid])`. -/
def bumpProc (l : List Nat) (i : Nat) : List Nat := l.set i (l.getD i 0 + 1)

/-- Record one more execution of task `t`. -/
def bumpExec (f : Nat → Nat) (t : Nat) : Nat → Nat :=
  fun x => if x = t then f x + 1 else f x

/-- Interleaving semantics of the run loop, one atomic step of any thread:
`spawn` — the generator polls `canPop()`, sees true and spawns one task;
`loopExit` — the generator polls `canPop()`, sees false and leaves the loop;
`workPop` — a spawned task's `waitAndPop` atomically takes the head item,
executes it, and increments the counter slot of the thread it ran on;
`workEmpty` — a spawned task's `waitAndPop` returns `(false, _)` because the
queue is draining and empty, and the task body does nothing. -/
inductive Step (nThreads : Nat) : RunnerState → RunnerState → Prop where
  | spawn (s : RunnerState) :
      s.loopActive = true → s.q.canPop = true →
      Step nThreads s ⟨s.q, s.pending + 1, true, s.proc, s.execCount⟩
  | loopExit (s : RunnerState) :
      s.loopActive = true → s.q.canPop = false →
      Step nThreads s ⟨s.q, s.pending, false, s.proc, s.execCount⟩
  | workPop (s : RunnerState) (tid t : Nat) (rest : List Nat) :
      tid < nThreads → 0 < s.pending → s.q.items = t :: rest →
      Step nThreads s ⟨⟨rest, s.q.pushEnabled⟩, s.pending - 1, s.loopActive,
        bumpProc s.proc tid, bumpExec s.execCount t⟩
  | workEmpty (s : RunnerState) :
      0 < s.pending → s.q.items = [] → s.q.pushEnabled = false →
      Step nThreads s ⟨s.q, s.pending - 1, s.loopActive, s.proc, s.execCount⟩

/-- Multi-step reachability of the run loop. -/
def Reachable (nThreads : Nat) : RunnerState → RunnerState → Prop :=
  Relation.ReflTransGen (Step nThreads)

/-- The run loop has completed: the generator left its loop and every
spawned task has finished. -/
def Terminal (s : RunnerState) : Prop := s.loopActive = false ∧ s.pending = 0

/-- The state at the start of `operator()` in the scenario of the claim:
`M` tasks were submitted via `addTask`, then `disableAdd` was called, so the
queue holds tasks `0..M-1` and is draining; no OpenMP task exists yet; the
freshly allocated (uninitialised) counter array holds arbitrary values `g`. -/
def initState (M : Nat) (g : List Nat) : RunnerState :=
  ⟨⟨List.range M, false⟩, 0, true, g, fun _ => 0⟩

/-- The sum the source computes over `proc[0..nThreads)` after the parallel
region. -/
def sumProc (s : RunnerState) : Nat := s.proc.sum

/-- Invariant of the run loop: the queue is draining and still holds the
tasks from position `k` on, tasks `0..k-1` have been executed exactly once
each, the counters hold their initial (garbage) sum plus `k`, and once the
generator has left its loop the queue is empty. -/
def RunnerInv (nThreads M : Nat) (g : List Nat) (s : RunnerState) : Prop :=
  s.q.pushEnabled = false ∧
  s.proc.length = nThreads ∧
  ∃ k, k ≤ M ∧ s.q.items = (List.range M).drop k ∧
    (∀ t, s.execCount t = if t < k then 1 else 0) ∧
    sumProc s = g.sum + k ∧
    (s.loopActive = false → s.q.items = [])

/-- C5: `merge(a, b)` fails with `DisjointRangeError` exactly when
`a.start > b.end ∨ a.end < b.start` (a and b disjoint and non-adjacent);
otherwise the result has `start = min(a.start, b.start)`,
`end = max(a.end, b.end)`, and its `overlap` is taken from whichever input
has the larger `end`. -/
theorem c5_merge_disjoint_and_fields (a b : Range) :
    (Range.merge a b = none ↔ (b.stop < a.start ∨ a.stop < b.start)) ∧
    (∀ r, Range.merge a b = some r →
      r.start = min a.start b.start ∧
      r.stop = max a.stop b.stop ∧
      (b.stop < a.stop → r.overlap = a.overlap) ∧
      (a.stop < b.stop → r.overlap = b.overlap)) := by
  by_cases hd : b.stop < a.start ∨ a.stop < b.start
  · have hm : Range.merge a b = none := by
      unfold Range.merge Range.isDisjoint
      rcases hd with h | h <;> simp [h]
    refine ⟨iff_of_true hm hd, ?_⟩
    intro r hr
    rw [hm] at hr
    exact absurd hr (by simp)
  · have h1 : ¬ b.stop < a.start := fun h => hd (Or.inl h)
    have h2 : ¬ a.stop < b.start := fun h => hd (Or.inr h)
    have hm : Range.merge a b
        = some ⟨min a.start b.start, max a.stop b.stop,
                if a.stop < b.stop then b.overlap else a.overlap⟩ := by
      unfold Range.merge Range.isDisjoint
      simp [h1, h2]
    refine ⟨iff_of_false (by simp [hm]) hd, ?_⟩
    intro r hr
    rw [hm] at hr
    injection hr with hr
    subst hr
    refine ⟨rfl, rfl, ?_, ?_⟩
    · intro hba
      simp [show ¬ a.stop < b.stop by omega]
    · intro hab
      simp [hab]

/-- Closed witness for C5 at the concrete ranges `[0,2) overlap 1` and
`[1,3) overlap 7`, whose merge is `[0,3) overlap 7`. -/
theorem c5_merge_disjoint_and_fields_witness :
    (Range.mk 0 3 7).start = min (Range.mk 0 2 1).start (Range.mk 1 3 7).start ∧
    (Range.mk 0 3 7).overlap = (Range.mk 1 3 7).overlap := by
  have h := (c5_merge_disjoint_and_fields (Range.mk 0 2 1) (Range.mk 1 3 7)).2
      (Range.mk 0 3 7) (by decide)
  exact ⟨h.1, h.2.2.2 (by decide)⟩

/-- C6: `intersect(a, b)` (total, never throws) has
`end = min(a.end, b.end)` and `start = max(a.start, b.start)` clamped so that
`start ≤ end`; for disjoint valid ranges the result is the degenerate empty
range at `min(a.end, b.end)`, of size 0. -/
theorem c6_intersect_clamped (a b : Range)
    (ha : a.start ≤ a.stop) (hb : b.start ≤ b.stop) :
    (Range.intersect a b).stop = min a.stop b.stop ∧
    (Range.intersect a b).start = min (max a.start b.start) (min a.stop b.stop) ∧
    (Range.intersect a b).start ≤ (Range.intersect a b).stop ∧
    (Range.isDisjoint a b = true →
      (Range.intersect a b).start = min a.stop b.stop ∧
      (Range.intersect a b).start = (Range.intersect a b).stop ∧
      Range.size (Range.intersect a b) = 0) := by
  refine ⟨rfl, rfl, ?_, ?_⟩
  · show min (max a.start b.start) (min a.stop b.stop) ≤ min a.stop b.stop
    omega
  · intro hd
    have hd' : b.stop < a.start ∨ a.stop < b.start := by
      have := hd
      unfold Range.isDisjoint at this
      simpa using this
    have hs : min (max a.start b.start) (min a.stop b.stop) = min a.stop b.stop := by
      omega
    refine ⟨hs, hs, ?_⟩
    show (min a.stop b.stop - min (max a.start b.start) (min a.stop b.stop)) % (2 ^ 64 : Int) = 0
    rw [hs]
    simp

/-- Closed witness for C6 at the disjoint valid ranges `[0,1)` and
`[5,9) overlap 2`. -/
theorem c6_intersect_clamped_witness :
    (Range.intersect (Range.mk 0 1 0) (Range.mk 5 9 2)).start
      = (Range.intersect (Range.mk 0 1 0) (Range.mk 5 9 2)).stop ∧
    Range.size (Range.intersect (Range.mk 0 1 0) (Range.mk 5 9 2)) = 0 := by
  have h := (c6_intersect_clamped (Range.mk 0 1 0) (Range.mk 5 9 2)
      (by decide) (by decide)).2.2.2 (by decide)
  exact ⟨h.2.1, h.2.2⟩

/-- C10: the `overlap` of `intersect(a, b)` comes from the input with the
smaller `end`: it is `b.overlap` when `a.end > b.end` and `a.overlap`
otherwise (ties keep the first input's overlap). -/
theorem c10_intersect_overlap (a b : Range) :
    (Range.intersect a b).overlap = if b.stop < a.stop then b.overlap else a.overlap :=
  rfl

/-- C7 (code bug): at `start = -5`, `page_size = 3` the code returns `-7`,
which is not a multiple of 3 (the documented answer, the largest multiple of
3 not exceeding -5, is -6): the expression `(start / page_size) * page_size`
converts the signed `start` to `size_t`, so the negative-start adjustment
branch documented in the source never runs for 64-bit `TT`. -/
theorem c7_align_to_page_failing_input :
    Range.align_to_page (-5) 3 = Except.ok (-7) ∧
    ¬ ((3 : Int) ∣ (-7)) ∧ ((-7 : Int) ≠ -6) := by
  refine ⟨?_, by decide, by decide⟩
  rfl

/-! ### Arithmetic toolkit for the bit-level proofs -/

theorem or_add_two_pow {n b : Nat} (a : Nat) (hb : b < 2 ^ n) :
    b ||| 2 ^ n * a = b + 2 ^ n * a := by
  rw [Nat.lor_comm, ← Nat.mul_add_lt_is_or hb a, Nat.add_comm]

/-- Base-`2^w` digit decomposition of a value of at most `n` digits. -/
theorem digits_decomp (w : Nat) :
    ∀ n x, x < 2 ^ (w * n) →
      (Finset.sum (Finset.range n) fun s => x / 2 ^ (w * s) % 2 ^ w * 2 ^ (w * s)) = x := by
  intro n
  induction n with
  | zero =>
    intro x hx
    simp only [Nat.mul_zero, pow_zero, Nat.lt_one_iff] at hx
    simp [hx]
  | succ n ih =>
    intro x hx
    have hpow : (0 : Nat) < 2 ^ w := Nat.pos_pow_of_pos w (by omega)
    have hdiv : x / 2 ^ w < 2 ^ (w * n) := by
      rw [Nat.div_lt_iff_lt_mul hpow, ← pow_add]
      have : w * n + w = w * (n + 1) := by ring
      rw [this]
      exact hx
    calc
      (Finset.sum (Finset.range (n + 1)) fun s => x / 2 ^ (w * s) % 2 ^ w * 2 ^ (w * s))
          = (Finset.sum (Finset.range n)
              fun s => x / 2 ^ (w * (s + 1)) % 2 ^ w * 2 ^ (w * (s + 1)))
            + x / 2 ^ (w * 0) % 2 ^ w * 2 ^ (w * 0) := Finset.sum_range_succ' _ n
      _ = (Finset.sum (Finset.range n)
              fun s => x / 2 ^ w / 2 ^ (w * s) % 2 ^ w * 2 ^ (w * s)) * 2 ^ w
            + x % 2 ^ w := by
            rw [Finset.sum_mul]
            simp only [Nat.mul_zero, pow_zero, Nat.div_one, Nat.mul_one]
            congr 1
            refine Finset.sum_congr rfl fun s _ => ?_
            rw [Nat.div_div_eq_div_mul, ← pow_add]
            have h1 : w * (s + 1) = w + w * s := by ring
            have h2 : w * s + w = w * (s + 1) := by ring
            rw [← h1, ← h2, pow_add]
            ring
      _ = x / 2 ^ w * 2 ^ w + x % 2 ^ w := by rw [ih _ hdiv]
      _ = x := by rw [Nat.mul_comm]; exact Nat.div_add_mod x (2 ^ w)

/-- A sum of `w`-bit digits placed at stride `w` is bounded by `2^(n*w)`. -/
theorem digit_sum_lt {w : Nat} (f : Nat → Nat) :
    ∀ n, (∀ i, i < n → f i < 2 ^ w) →
      (Finset.sum (Finset.range n) fun i => f i * 2 ^ (i * w)) < 2 ^ (n * w) := by
  intro n
  induction n with
  | zero => intro _; simp
  | succ n ih =>
    intro hf
    rw [Finset.sum_range_succ]
    have hpow : (0 : Nat) < 2 ^ w := Nat.pos_pow_of_pos w (by omega)
    have h1 : (Finset.sum (Finset.range n) fun i => f i * 2 ^ (i * w)) < 2 ^ (n * w) :=
      ih fun i hi => hf i (by omega)
    have h2 : f n * 2 ^ (n * w) ≤ (2 ^ w - 1) * 2 ^ (n * w) :=
      Nat.mul_le_mul_right _ (by have := hf n (by omega); omega)
    have hz : 2 ^ (n * w) ≤ 2 ^ w * 2 ^ (n * w) := Nat.le_mul_of_pos_left _ hpow
    have h3 : 2 ^ (n * w) + (2 ^ w - 1) * 2 ^ (n * w) = 2 ^ ((n + 1) * w) := by
      rw [Nat.succ_mul, pow_add, Nat.mul_comm (2 ^ (n * w)) (2 ^ w), Nat.sub_mul,
        Nat.one_mul]
      omega
    calc (Finset.sum (Finset.range n) fun i => f i * 2 ^ (i * w)) + f n * 2 ^ (n * w)
        < 2 ^ (n * w) + (2 ^ w - 1) * 2 ^ (n * w) := by omega
      _ = 2 ^ ((n + 1) * w) := h3

/-- Dividing out one `w`-bit digit: the first digit is dropped and the rest
shift down one stride. -/
theorem digit_sum_div {w : Nat} (f : Nat → Nat) (n : Nat) (hf : f 0 < 2 ^ w) :
    (Finset.sum (Finset.range (n + 1)) fun i => f i * 2 ^ (i * w)) / 2 ^ w
      = Finset.sum (Finset.range n) fun i => f (i + 1) * 2 ^ (i * w) := by
  have hpow : (0 : Nat) < 2 ^ w := Nat.pos_pow_of_pos w (by omega)
  rw [Finset.sum_range_succ']
  have h1 : (Finset.sum (Finset.range n) fun i => f (i + 1) * 2 ^ ((i + 1) * w))
      = 2 ^ w * Finset.sum (Finset.range n) fun i => f (i + 1) * 2 ^ (i * w) := by
    rw [Finset.mul_sum]
    refine Finset.sum_congr rfl fun i _ => ?_
    rw [Nat.succ_mul, pow_add]
    ring
  rw [h1]
  simp only [Nat.zero_mul, pow_zero, Nat.mul_one]
  rw [Nat.mul_add_div hpow]
  rw [Nat.div_eq_of_lt hf, Nat.add_zero]

/-! ### Numeric values of the constexpr constants -/

theorem N_PACKED_CHARS_eq : N_PACKED_CHARS = 5 := rfl

theorem N_BITS_eq : N_BITS = 3 := rfl

theorem N_K_eq : N_K = 21 := rfl

theorem KEY_BITS_eq : KEY_BITS = 64 := rfl

theorem DIV_eq : DIV = 4 := rfl

theorem REM_eq : REM = 1 := rfl

theorem REM_MASK_eq : REM_MASK = 7 := rfl

theorem SIG_BITS_eq : SIG_BITS = 15 := rfl

theorem CHAR_MASK_eq : CHAR_MASK = 7 := rfl

theorem PADDING_MASK_eq : PADDING_MASK = 32767 := rfl

theorem charAt_def5 (seq : List Nat) (c : Nat) :
    charAt seq c = seq.getD (c / 5) 0 >>> (c % 5 * 3) &&& 7 := rfl

theorem charAt_le (seq : List Nat) (c : Nat) : charAt seq c ≤ 7 :=
  Nat.and_le_right

/-! ### The slide step recomputes the specification's window key -/

theorem windowKey_lt (seq : List Nat) (j : Nat) : windowKey seq j < 2 ^ 63 := by
  have h := @digit_sum_lt 3 (fun i => charAt seq (j + i)) 21
    (fun i _ => lt_of_le_of_lt (charAt_le seq (j + i)) (by norm_num))
  unfold windowKey
  rw [N_K_eq, N_BITS_eq]
  simpa using h

theorem windowKey_step (seq : List Nat) (j : Nat) :
    windowKey seq j >>> 3 ||| charAt seq (j + 21) <<< 60 % 2 ^ 64
      = windowKey seq (j + 1) := by
  have hle : charAt seq (j + 21) ≤ 7 := charAt_le seq (j + 21)
  have hshift : charAt seq (j + 21) <<< 60 % 2 ^ 64
      = 2 ^ 60 * charAt seq (j + 21) := by
    rw [Nat.shiftLeft_eq, Nat.mod_eq_of_lt (by omega), Nat.mul_comm]
  have hdiv : windowKey seq j >>> 3
      = Finset.sum (Finset.range 20) fun i => charAt seq (j + 1 + i) * 2 ^ (i * 3) := by
    have h20 := @digit_sum_div 3 (fun i => charAt seq (j + i)) 20
      (lt_of_le_of_lt (charAt_le seq (j + 0)) (by norm_num))
    have h0 : windowKey seq j >>> 3
        = (Finset.sum (Finset.range 21) fun i => charAt seq (j + i) * 2 ^ (i * 3)) / 2 ^ 3 := by
      rw [Nat.shiftRight_eq_div_pow]
      rfl
    rw [h0, h20]
    refine Finset.sum_congr rfl fun i _ => ?_
    show charAt seq (j + (i + 1)) * 2 ^ (i * 3) = charAt seq (j + 1 + i) * 2 ^ (i * 3)
    have he : j + (i + 1) = j + 1 + i := by omega
    rw [he]
  have hlt : (Finset.sum (Finset.range 20) fun i => charAt seq (j + 1 + i) * 2 ^ (i * 3))
      < 2 ^ 60 := by
    have h := @digit_sum_lt 3 (fun i => charAt seq (j + 1 + i)) 20
      (fun i _ => lt_of_le_of_lt (charAt_le seq (j + 1 + i)) (by norm_num))
    simpa using h
  rw [hdiv, hshift, or_add_two_pow _ hlt]
  have hw : windowKey seq (j + 1)
      = (Finset.sum (Finset.range 20) fun i => charAt seq (j + 1 + i) * 2 ^ (i * 3))
        + charAt seq (j + 1 + 20) * 2 ^ (20 * 3) := by
    unfold windowKey
    rw [N_K_eq, N_BITS_eq]
    exact Finset.sum_range_succ _ 20
  rw [hw]
  have he : j + 1 + 20 = j + 21 := by omega
  rw [he]
  have hp : (2 : Nat) ^ (20 * 3) = 2 ^ 60 := by norm_num
  rw [hp, Nat.mul_comm (2 ^ 60) (charAt seq (j + 21))]

/-- The value the slide loop computes from the invariant state at window `k`
is exactly the next window key. -/
theorem stState_key_step (seq : List Nat) (k : Nat) (hk : 1 ≤ k) :
    windowKey seq (k - 1) >>> N_BITS |||
      (seq.getD ((k + 20) / 5) 0 >>> ((k + 20) % 5 * N_BITS) &&& CHAR_MASK) <<<
        ((N_K - 1) * N_BITS) % 2 ^ KEY_BITS
      = windowKey seq k := by
  have h := windowKey_step seq (k - 1)
  have e1 : k - 1 + 21 = k + 20 := by omega
  have e2 : k - 1 + 1 = k := by omega
  rw [e1, e2] at h
  calc windowKey seq (k - 1) >>> N_BITS |||
      (seq.getD ((k + 20) / 5) 0 >>> ((k + 20) % 5 * N_BITS) &&& CHAR_MASK) <<<
          ((N_K - 1) * N_BITS) % 2 ^ KEY_BITS
      = windowKey seq (k - 1) >>> 3 ||| charAt seq (k + 20) <<< 60 % 2 ^ 64 := rfl
    _ = windowKey seq k := h

/-- One non-breaking iteration of the slide loop takes the invariant state at
window `k` to the invariant state at window `k + 1`.  The bound `k + 22 ≤ L`
keeps the reloaded word inside the array; `k + 21 ≤ 1279` keeps the cursor
word index below `2^8`, so the `uint8_t` increment does not wrap. -/
theorem slideSteps_step (seq : List Nat) (L m k : Nat)
    (hlen : seq.length = (L + 4) / 5)
    (hk : 1 ≤ k) (hkL : k + 22 ≤ L) (hkW : k + 21 ≤ 1279) :
    slideSteps seq (m + 1) (stState seq k) = slideSteps seq m (stState seq (k + 1)) := by
  have hkey := stState_key_step seq k hk
  have hkeys : List.map (windowKey seq) (List.range k) ++ [windowKey seq k]
      = List.map (windowKey seq) (List.range (k + 1)) := by
    rw [List.range_succ, List.map_append, List.map_singleton]
  simp only [slideSteps, stState]
  rw [hkey, hkeys]
  have hpos : ((k + 20) % 5 + 1) % 2 ^ 8 = (k + 20) % 5 + 1 :=
    Nat.mod_eq_of_lt (by omega)
  rw [hpos]
  have e3 : k + 1 + 20 = k + 21 := by omega
  have e4 : k + 1 - 1 = k := by omega
  rw [e3, e4]
  rw [N_PACKED_CHARS_eq]
  by_cases h5 : (k + 21) % 5 = 0
  · rw [if_pos (show ((k + 20) % 5 + 1) % 5 = 0 by omega)]
    have hlb : ((k + 20) / 5 + 1) % 2 ^ 8 = (k + 21) / 5 := by
      have : (k + 20) / 5 + 1 = (k + 21) / 5 := by omega
      rw [this]
      exact Nat.mod_eq_of_lt (by omega)
    simp only [hlb]
    have hin : (k + 21) / 5 < seq.length := by omega
    rw [if_neg (by omega), if_neg (by omega)]
    have hoob : (false || decide (seq.length ≤ (k + 21) / 5)) = false := by
      simp only [Bool.false_or, decide_eq_false_iff_not]
      omega
    rw [hoob]
    have h50 : (k + 21) % 5 = 0 := h5
    rw [h50]
  · rw [if_neg (show ¬ ((k + 20) % 5 + 1) % 5 = 0 by omega)]
    have e5 : (k + 21) / 5 = (k + 20) / 5 := by omega
    have e6 : (k + 21) % 5 = (k + 20) % 5 + 1 := by omega
    rw [e5, e6]

/-- Running `fuel` non-breaking iterations from the invariant state at `j`
(with `rest` further iterations of fuel left over) reaches the invariant
state at `j + fuel`. -/
theorem slideSteps_run (seq : List Nat) (L : Nat) (hlen : seq.length = (L + 4) / 5) :
    ∀ fuel j rest, 1 ≤ j → j + fuel + 21 ≤ L → j + fuel + 20 ≤ 1279 →
      slideSteps seq (fuel + rest) (stState seq j)
        = slideSteps seq rest (stState seq (j + fuel)) := by
  intro fuel
  induction fuel with
  | zero => intro j rest _ _ _; rw [Nat.zero_add, Nat.add_zero]
  | succ fuel ih =>
    intro j rest hj hL hW
    have e1 : fuel + 1 + rest = (fuel + rest) + 1 := by omega
    rw [e1, slideSteps_step seq L (fuel + rest) j hlen hj (by omega) (by omega)]
    have h := ih (j + 1) rest (by omega) (by omega) (by omega)
    rw [h]
    have e2 : j + 1 + fuel = j + (fuel + 1) := by omega
    rw [e2]

/-- A packed word (with zero padding bits) is the sum of its five packed
characters. -/
theorem word_decomp (seq : List Nat) (j : Nat) (hj : seq.getD j 0 < 2 ^ 15) :
    seq.getD j 0 = Finset.sum (Finset.range 5) fun s => charAt seq (5 * j + s) * 2 ^ (s * 3) := by
  have h := digits_decomp 3 5 (seq.getD j 0)
    (by rw [show (2 : Nat) ^ (3 * 5) = 2 ^ 15 from by norm_num]; exact hj)
  rw [← h]
  refine Finset.sum_congr rfl fun s hs => ?_
  have hs5 : s < 5 := Finset.mem_range.mp hs
  rw [charAt_def5]
  have hd : (5 * j + s) / 5 = j := by omega
  have hm : (5 * j + s) % 5 = s := by omega
  rw [hd, hm, Nat.shiftRight_eq_div_pow]
  have hand : seq.getD j 0 / 2 ^ (s * 3) &&& 7 = seq.getD j 0 / 2 ^ (s * 3) % 2 ^ 3 := by
    have h7 := Nat.and_pow_two_sub_one_eq_mod (seq.getD j 0 / 2 ^ (s * 3)) 3
    norm_num at h7
    norm_num
    exact h7
  have hmc : s * 3 = 3 * s := Nat.mul_comm s 3
  rw [hand, hmc]

/-- For a well-formed sequence of length at least `N_K`, the seed phase
computes exactly the window key of position 0, with no out-of-bounds read. -/
theorem seedKey_eq (seq : List Nat) (L : Nat) (hwf : wellFormed seq L) (hL : 21 ≤ L) :
    seedKey seq = (windowKey seq 0, false) := by
  obtain ⟨hlen0, hwlt, _⟩ := hwf
  have hlen : seq.length = (L + 4) / 5 := by
    rw [hlen0, N_PACKED_CHARS_eq]
    omega
  have hlen5 : 5 ≤ seq.length := by omega
  have hw : ∀ j, j < seq.length → seq.getD j 0 < 2 ^ 15 := by
    intro j hjl
    have hg : seq.getD j 0 = seq[j] := by
      simp [List.getD_eq_getElem?_getD, List.getElem?_eq_getElem hjl]
    rw [hg]
    have := hwlt seq[j] (List.getElem_mem hjl)
    rwa [SIG_BITS_eq] at this
  have h0 := hw 0 (by omega)
  have h1 := hw 1 (by omega)
  have h2 := hw 2 (by omega)
  have h3 := hw 3 (by omega)
  unfold seedKey
  rw [show List.range DIV = [0, 1, 2, 3] from rfl]
  simp only [List.foldl_cons, List.foldl_nil, REM_eq, REM_MASK_eq, DIV_eq, SIG_BITS_eq,
    KEY_BITS_eq]
  rw [if_pos (by omega : (0 : Nat) < 1)]
  have hd0 : decide (seq.length ≤ 0) = false := decide_eq_false (by omega)
  have hd1 : decide (seq.length ≤ 1) = false := decide_eq_false (by omega)
  have hd2 : decide (seq.length ≤ 2) = false := decide_eq_false (by omega)
  have hd3 : decide (seq.length ≤ 3) = false := decide_eq_false (by omega)
  have hd4 : decide (seq.length ≤ 4) = false := decide_eq_false (by omega)
  simp only [hd0, hd1, hd2, hd3, hd4, Bool.or_false]
  refine Prod.ext ?_ rfl
  show (((0 ||| seq.getD 0 0 <<< (0 * 15) % 2 ^ 64) ||| seq.getD 1 0 <<< (1 * 15) % 2 ^ 64)
      ||| seq.getD 2 0 <<< (2 * 15) % 2 ^ 64) ||| seq.getD 3 0 <<< (3 * 15) % 2 ^ 64
      ||| (seq.getD 4 0 &&& 7) <<< (4 * 15) % 2 ^ 64 = windowKey seq 0
  have hm7 : seq.getD 4 0 &&& 7 ≤ 7 := Nat.and_le_right
  have t0 : seq.getD 0 0 <<< (0 * 15) % 2 ^ 64 = seq.getD 0 0 := by
    rw [show (0 * 15 : Nat) = 0 from rfl, Nat.shiftLeft_zero, Nat.mod_eq_of_lt (by omega)]
  have t1 : seq.getD 1 0 <<< (1 * 15) % 2 ^ 64 = 2 ^ 15 * seq.getD 1 0 := by
    rw [show (1 * 15 : Nat) = 15 from rfl, Nat.shiftLeft_eq,
      Nat.mod_eq_of_lt (by omega), Nat.mul_comm]
  have t2 : seq.getD 2 0 <<< (2 * 15) % 2 ^ 64 = 2 ^ 30 * seq.getD 2 0 := by
    rw [show (2 * 15 : Nat) = 30 from rfl, Nat.shiftLeft_eq,
      Nat.mod_eq_of_lt (by omega), Nat.mul_comm]
  have t3 : seq.getD 3 0 <<< (3 * 15) % 2 ^ 64 = 2 ^ 45 * seq.getD 3 0 := by
    rw [show (3 * 15 : Nat) = 45 from rfl, Nat.shiftLeft_eq,
      Nat.mod_eq_of_lt (by omega), Nat.mul_comm]
  have t4 : (seq.getD 4 0 &&& 7) <<< (4 * 15) % 2 ^ 64 = 2 ^ 60 * (seq.getD 4 0 &&& 7) := by
    rw [show (4 * 15 : Nat) = 60 from rfl, Nat.shiftLeft_eq,
      Nat.mod_eq_of_lt (by omega), Nat.mul_comm]
  rw [Nat.zero_or, t0, t1, t2, t3, t4]
  rw [or_add_two_pow _ (by omega : seq.getD 0 0 < 2 ^ 15)]
  rw [or_add_two_pow _ (by omega : seq.getD 0 0 + 2 ^ 15 * seq.getD 1 0 < 2 ^ 30)]
  rw [or_add_two_pow _ (by omega :
    seq.getD 0 0 + 2 ^ 15 * seq.getD 1 0 + 2 ^ 30 * seq.getD 2 0 < 2 ^ 45)]
  rw [or_add_two_pow _ (by omega :
    seq.getD 0 0 + 2 ^ 15 * seq.getD 1 0 + 2 ^ 30 * seq.getD 2 0
      + 2 ^ 45 * seq.getD 3 0 < 2 ^ 60)]
  have hc20 : seq.getD 4 0 &&& 7 = charAt seq 20 := by
    rw [charAt_def5]
    norm_num
  rw [hc20, word_decomp seq 0 h0, word_decomp seq 1 h1, word_decomp seq 2 h2,
    word_decomp seq 3 h3]
  unfold windowKey
  rw [N_K_eq, N_BITS_eq]
  simp only [Finset.sum_range_succ, Finset.sum_range_zero, Nat.zero_add]
  norm_num
  ring

/-- The slide loop never reads out of bounds: the only `seq[i]` access it
performs is guarded by the two cursor checks. -/
theorem slideSteps_oob (seq : List Nat) :
    ∀ fuel s, (slideSteps seq fuel s).oob = s.oob := by
  intro fuel
  induction fuel with
  | zero => intro s; rfl
  | succ fuel ih =>
    intro s
    simp only [slideSteps]
    by_cases h1 : (s.last_block_pos + 1) % 2 ^ 8 % N_PACKED_CHARS = 0
    · rw [if_pos h1]
      by_cases h2 : seq.length < (s.last_block + 1) % 2 ^ 8
      · rw [if_pos h2]
      · rw [if_neg h2]
        by_cases h3 : (s.last_block + 1) % 2 ^ 8 = seq.length
        · rw [if_pos h3]
        · rw [if_neg h3, ih]
          show (s.oob || decide (seq.length ≤ (s.last_block + 1) % 2 ^ 8)) = s.oob
          rw [decide_eq_false (by omega), Bool.or_false]
    · rw [if_neg h1, ih]

/-- The slide loop only ever appends to the keys already written. -/
theorem slideSteps_keys_grow (seq : List Nat) :
    ∀ fuel s, ∃ t, (slideSteps seq fuel s).keys = s.keys ++ t := by
  intro fuel
  induction fuel with
  | zero => intro s; exact ⟨[], by show s.keys = s.keys ++ []; simp⟩
  | succ fuel ih =>
    intro s
    simp only [slideSteps]
    by_cases h1 : (s.last_block_pos + 1) % 2 ^ 8 % N_PACKED_CHARS = 0
    · rw [if_pos h1]
      by_cases h2 : seq.length < (s.last_block + 1) % 2 ^ 8
      · rw [if_pos h2]
        exact ⟨_, rfl⟩
      · rw [if_neg h2]
        by_cases h3 : (s.last_block + 1) % 2 ^ 8 = seq.length
        · rw [if_pos h3]
          exact ⟨_, rfl⟩
        · rw [if_neg h3]
          obtain ⟨t, ht⟩ := ih
            ⟨s.key >>> N_BITS |||
              (s.block >>> (s.last_block_pos * N_BITS) &&& CHAR_MASK) <<<
                ((N_K - 1) * N_BITS) % 2 ^ KEY_BITS,
             (s.last_block + 1) % 2 ^ 8, 0, seq.getD ((s.last_block + 1) % 2 ^ 8) 0,
             s.keys ++ [s.key >>> N_BITS |||
               (s.block >>> (s.last_block_pos * N_BITS) &&& CHAR_MASK) <<<
                 ((N_K - 1) * N_BITS) % 2 ^ KEY_BITS],
             s.oob || decide (seq.length ≤ (s.last_block + 1) % 2 ^ 8), s.err⟩
          exact ⟨_, by rw [ht, List.append_assoc]⟩
    · rw [if_neg h1]
      obtain ⟨t, ht⟩ := ih
        ⟨s.key >>> N_BITS |||
          (s.block >>> (s.last_block_pos * N_BITS) &&& CHAR_MASK) <<<
            ((N_K - 1) * N_BITS) % 2 ^ KEY_BITS,
         s.last_block, (s.last_block_pos + 1) % 2 ^ 8, s.block,
         s.keys ++ [s.key >>> N_BITS |||
           (s.block >>> (s.last_block_pos * N_BITS) &&& CHAR_MASK) <<<
             ((N_K - 1) * N_BITS) % 2 ^ KEY_BITS],
         s.oob, s.err⟩
      exact ⟨_, by rw [ht, List.append_assoc]⟩

/-- Each loop iteration writes at most one key. -/
theorem slideSteps_keys_len (seq : List Nat) :
    ∀ fuel s, (slideSteps seq fuel s).keys.length ≤ s.keys.length + fuel := by
  intro fuel
  induction fuel with
  | zero => intro s; show s.keys.length ≤ s.keys.length + 0; omega
  | succ fuel ih =>
    intro s
    simp only [slideSteps]
    by_cases h1 : (s.last_block_pos + 1) % 2 ^ 8 % N_PACKED_CHARS = 0
    · rw [if_pos h1]
      by_cases h2 : seq.length < (s.last_block + 1) % 2 ^ 8
      · rw [if_pos h2]
        show (s.keys ++ [_]).length ≤ s.keys.length + (fuel + 1)
        simp only [List.length_append, List.length_singleton]
        omega
      · rw [if_neg h2]
        by_cases h3 : (s.last_block + 1) % 2 ^ 8 = seq.length
        · rw [if_pos h3]
          show (s.keys ++ [_]).length ≤ s.keys.length + (fuel + 1)
          simp only [List.length_append, List.length_singleton]
          omega
        · rw [if_neg h3]
          refine le_trans (ih _) ?_
          show (s.keys ++ [_]).length + fuel ≤ s.keys.length + (fuel + 1)
          simp only [List.length_append, List.length_singleton]
          omega
    · rw [if_neg h1]
      refine le_trans (ih _) ?_
      show (s.keys ++ [_]).length + fuel ≤ s.keys.length + (fuel + 1)
      simp only [List.length_append, List.length_singleton]
      omega

/-- Once the word array has at least `2^8` words, the wrapped `uint8_t`
word cursor — always below `2^8` — can satisfy neither break condition
(`seq.size() < last_block` nor `last_block == seq.size()`), so every loop
iteration appends exactly one key, whatever the state. -/
theorem slideSteps_len_big (seq : List Nat) (hbig : 2 ^ 8 ≤ seq.length) :
    ∀ fuel s, (slideSteps seq fuel s).keys.length = s.keys.length + fuel := by
  intro fuel
  induction fuel with
  | zero => intro s; rfl
  | succ fuel ih =>
    intro s
    have hlb : (s.last_block + 1) % 2 ^ 8 < 2 ^ 8 := Nat.mod_lt _ (by norm_num)
    simp only [slideSteps]
    by_cases h1 : (s.last_block_pos + 1) % 2 ^ 8 % N_PACKED_CHARS = 0
    · have h2 : ¬ seq.length < (s.last_block + 1) % 2 ^ 8 := by omega
      have h3 : ¬ (s.last_block + 1) % 2 ^ 8 = seq.length := by omega
      rw [if_pos h1, if_neg h2, if_neg h3, ih]
      show (s.keys ++ [_]).length + fuel = s.keys.length + (fuel + 1)
      simp only [List.length_append, List.length_singleton]
      omega
    · rw [if_neg h1, ih]
      show (s.keys ++ [_]).length + fuel = s.keys.length + (fuel + 1)
      simp only [List.length_append, List.length_singleton]
      omega

/-- Running the loop for exactly one iteration appends exactly one key (the
slide of the current state), whatever the cursor does afterwards. -/
theorem slideSteps_one (seq : List Nat) (s : KeyState) :
    (slideSteps seq 1 s).keys
      = s.keys ++ [s.key >>> N_BITS |||
          (s.block >>> (s.last_block_pos * N_BITS) &&& CHAR_MASK) <<<
            ((N_K - 1) * N_BITS) % 2 ^ KEY_BITS] := by
  simp only [slideSteps]
  by_cases h1 : (s.last_block_pos + 1) % 2 ^ 8 % N_PACKED_CHARS = 0
  · rw [if_pos h1]
    by_cases h2 : seq.length < (s.last_block + 1) % 2 ^ 8
    · rw [if_pos h2]
    · rw [if_neg h2]
      by_cases h3 : (s.last_block + 1) % 2 ^ 8 = seq.length
      · rw [if_pos h3]
      · rw [if_neg h3]
  · rw [if_neg h1]

/-- For a well-formed sequence of character length at least `N_K`,
`computeKeys` starts the slide loop in the invariant state at window 1. -/
theorem computeKeys_eq_st (seq : List Nat) (L kc : Nat)
    (hwf : wellFormed seq L) (hL : 21 ≤ L) :
    computeKeys seq kc = slideSteps seq (kc - 1) (stState seq 1) := by
  have hlen5 : 5 ≤ seq.length := by
    obtain ⟨hlen0, -, -⟩ := hwf
    rw [hlen0, N_PACKED_CHARS_eq]
    omega
  unfold computeKeys
  rw [seedKey_eq seq L hwf hL]
  rw [decide_eq_false (by rw [DIV_eq]; omega : ¬ seq.length ≤ DIV)]
  rfl

/-- Main correctness of the scalar key-encoding engine, for sequences whose
cursor never leaves the `uint8_t` word-index range (`L ≤ 1280`): invoked
with `key_count = L - N_K + 1`, it writes exactly the window keys 0 up to
`L - N_K`, in order, with no out-of-bounds access. -/
theorem computeKeys_windows (seq : List Nat) (L : Nat) (hwf : wellFormed seq L)
    (hL : 21 ≤ L) (hW : L ≤ 1280) :
    (computeKeys seq (L - 21 + 1)).keys = (List.range (L - 20)).map (windowKey seq) ∧
    (computeKeys seq (L - 21 + 1)).oob = false := by
  have hlen : seq.length = (L + 4) / 5 := by
    obtain ⟨hlen0, -, -⟩ := hwf
    rw [hlen0, N_PACKED_CHARS_eq]
    omega
  have hst := computeKeys_eq_st seq L (L - 21 + 1) hwf hL
  constructor
  · rw [hst]
    rcases Nat.lt_or_ge L 22 with h22 | h22
    · have hL21 : L = 21 := by omega
      subst hL21
      rfl
    · have e1 : L - 21 + 1 - 1 = (L - 22) + 1 := by omega
      rw [e1, slideSteps_run seq L hlen (L - 22) 1 1 (by omega) (by omega) (by omega)]
      have e2 : 1 + (L - 22) = L - 21 := by omega
      rw [e2, slideSteps_one]
      have hkey := stState_key_step seq (L - 21) (by omega)
      simp only [stState]
      rw [hkey]
      have e3 : L - 20 = (L - 21) + 1 := by omega
      rw [e3, List.range_succ, List.map_append, List.map_singleton]
  · rw [hst, slideSteps_oob]
    rfl

/-- For every well-formed sequence with `L ≥ N_K`, the engine writes exactly
`L - N_K + 1 = L - 20` keys.  Below the `uint8_t` wrap threshold
(`L ≤ 1280`) this follows from the full window correctness; past it the
array has at least `2^8` words, so the wrapped cursor can never trigger a
break and the loop always runs to completion — the key *values* go wrong
there, but the *count* does not. -/
theorem computeKeys_length (seq : List Nat) (L : Nat) (hwf : wellFormed seq L)
    (hL : 21 ≤ L) : (computeKeys seq (L - 21 + 1)).keys.length = L - 20 := by
  rcases le_or_lt L 1280 with hW | hW
  · rw [(computeKeys_windows seq L hwf hL hW).1, List.length_map, List.length_range]
  · have hlen : seq.length = (L + 4) / 5 := by
      obtain ⟨hlen0, -, -⟩ := hwf
      rw [hlen0, N_PACKED_CHARS_eq]
      omega
    have hbig : 2 ^ 8 ≤ seq.length := by
      rw [hlen]
      omega
    unfold computeKeys
    rw [slideSteps_len_big seq hbig]
    show 1 + (L - 21 + 1 - 1) = L - 20
    omega

/-- When `length + 1 ≥ nK` (no signed underflow) and the count fits in 64
bits, the wrapped per-unit key count is the exact one. -/
theorem keyCountU64_eq (len nK : Nat) (h : nK ≤ len + 1) (hlt : len + 1 - nK < 2 ^ 64) :
    keyCountU64 len nK = len + 1 - nK := by
  unfold keyCountU64
  have he : ((len : Int) - (nK : Int) + 1) = ((len + 1 - nK : Nat) : Int) := by
    push_cast [h]
    omega
  rw [he, Int.emod_eq_of_lt (by positivity) (by exact_mod_cast hlt)]
  simp

theorem consSum (nK len : Nat) (rest : List Nat) :
    (Finset.sum (Finset.range (rest.length + 1)) fun j => (len :: rest).getD j 0 + 1 - nK)
      = (len + 1 - nK)
        + Finset.sum (Finset.range rest.length) fun j => rest.getD j 0 + 1 - nK := by
  rw [Finset.sum_range_succ']
  simp only [List.getD_cons_succ, List.getD_cons_zero]
  omega

theorem scanKeyCountsFrom_exact (nK : Nat) :
    ∀ (ls : List Nat) (o : Nat), (∀ l ∈ ls, nK ≤ l + 1) →
      o + (Finset.sum (Finset.range ls.length) fun j => ls.getD j 0 + 1 - nK) < 2 ^ 64 →
      scanKeyCountsFrom nK o ls
        = (List.range ls.length).map
            (fun i => o + Finset.sum (Finset.range (i + 1)) fun j => ls.getD j 0 + 1 - nK) := by
  intro ls
  induction ls with
  | nil => intro o _ _; rfl
  | cons len rest ih =>
    intro o hall hfit
    have hlen : nK ≤ len + 1 := hall len (List.mem_cons_self len rest)
    have hcons := consSum nK len rest
    have hfit' : o + ((len + 1 - nK)
        + Finset.sum (Finset.range rest.length) fun j => rest.getD j 0 + 1 - nK) < 2 ^ 64 := by
      have : (len :: rest).length = rest.length + 1 := rfl
      rw [this, hcons] at hfit
      omega
    have hkc : keyCountU64 len nK = len + 1 - nK :=
      keyCountU64_eq len nK hlen (by omega)
    show ((o + keyCountU64 len nK) % 2 ^ 64)
        :: scanKeyCountsFrom nK ((o + keyCountU64 len nK) % 2 ^ 64) rest = _
    rw [hkc, Nat.mod_eq_of_lt (by omega)]
    rw [ih (o + (len + 1 - nK)) (fun l hl => hall l (List.mem_cons_of_mem len hl))
      (by omega)]
    have hr : (len :: rest).length = rest.length + 1 := rfl
    rw [hr, List.range_succ_eq_map, List.map_cons, List.map_map]
    congr 1
    refine List.map_congr_left fun i hi => ?_
    show o + (len + 1 - nK)
          + (Finset.sum (Finset.range (i + 1)) fun j => rest.getD j 0 + 1 - nK)
        = o + Finset.sum (Finset.range (i + 1 + 1)) fun j => (len :: rest).getD j 0 + 1 - nK
    nth_rewrite 2 [Finset.sum_range_succ']
    simp only [List.getD_cons_succ, List.getD_cons_zero]
    omega

/-- For lengths that never underflow (`length ≥ nK - 1`) and a total count
that fits in 64 bits, the offsets array is exactly the prefix-sum array of
the per-unit key counts, and it is non-decreasing. -/
theorem scanKeyCounts_exact (lengths : List Nat) (nK : Nat)
    (hall : ∀ l ∈ lengths, nK ≤ l + 1)
    (hfit : (Finset.sum (Finset.range lengths.length)
      fun j => lengths.getD j 0 + 1 - nK) < 2 ^ 64) :
    scanKeyCounts lengths nK
      = (List.range (lengths.length + 1)).map
          (fun i => Finset.sum (Finset.range i) fun j => lengths.getD j 0 + 1 - nK) ∧
    List.Chain' (fun a b => a ≤ b) (scanKeyCounts lengths nK) := by
  have hmap : scanKeyCounts lengths nK
      = (List.range (lengths.length + 1)).map
          (fun i => Finset.sum (Finset.range i) fun j => lengths.getD j 0 + 1 - nK) := by
    unfold scanKeyCounts
    rw [scanKeyCountsFrom_exact nK lengths 0 hall (by omega)]
    rw [List.range_succ_eq_map, List.map_cons, List.map_map]
    congr 1
    refine List.map_congr_left fun i hi => ?_
    show 0 + (Finset.sum (Finset.range (i + 1)) fun j => lengths.getD j 0 + 1 - nK)
        = Finset.sum (Finset.range (i + 1)) fun j => lengths.getD j 0 + 1 - nK
    omega
  refine ⟨hmap, ?_⟩
  rw [hmap]
  rw [List.chain'_map]
  rw [List.chain'_range_succ]
  intro m _
  exact Finset.sum_le_sum_of_subset (Finset.range_subset.mpr (by omega))

theorem getD_replicate_zero (n j : Nat) : (List.replicate n (0 : Nat)).getD j 0 = 0 := by
  rw [List.getD_eq_getElem?_getD, List.getElem?_replicate]
  split <;> rfl

theorem seqWrap_getD (i : Nat) (hi : 1 ≤ i) : seqWrap.getD i 0 = 0 := by
  rcases i with _ | j
  · omega
  · show (1 :: List.replicate 256 0).getD (j + 1) 0 = 0
    rw [List.getD_cons_succ]
    exact getD_replicate_zero 256 j

theorem seqWrap_charAt (c : Nat) (hc : 5 ≤ c) : charAt seqWrap c = 0 := by
  rw [charAt_def5, seqWrap_getD (c / 5) (by omega)]
  simp

theorem seqWrap_windowKey (j : Nat) (hj : 5 ≤ j) : windowKey seqWrap j = 0 := by
  unfold windowKey
  refine Finset.sum_eq_zero fun i _ => ?_
  rw [seqWrap_charAt (j + i) (by omega)]
  simp

theorem seqWrap_wellFormed : wellFormed seqWrap 1281 := by
  refine ⟨?_, ?_, ?_⟩
  · show seqWrap.length = (1281 + N_PACKED_CHARS - 1) / N_PACKED_CHARS
    rw [N_PACKED_CHARS_eq]
    show (1 :: List.replicate 256 0).length = 257
    rw [List.length_cons, List.length_replicate]
  · intro w hw
    rw [SIG_BITS_eq]
    rcases List.mem_cons.mp hw with h | h
    · omega
    · have := List.eq_of_mem_replicate h
      omega
  · intro c _ hc
    exact seqWrap_charAt c (by omega)

theorem zero_charAt (n c : Nat) : charAt (List.replicate n 0) c = 0 := by
  rw [charAt_def5, getD_replicate_zero]
  simp

theorem zero_wellFormed (L : Nat) :
    wellFormed (List.replicate ((L + N_PACKED_CHARS - 1) / N_PACKED_CHARS) 0) L := by
  refine ⟨by simp, ?_, ?_⟩
  · intro w hw
    have := List.eq_of_mem_replicate hw
    subst this
    rw [SIG_BITS_eq]
    omega
  · intro c _ _
    exact zero_charAt _ c

theorem zero_windowKey (n j : Nat) : windowKey (List.replicate n 0) j = 0 := by
  unfold windowKey
  refine Finset.sum_eq_zero fun i _ => ?_
  rw [zero_charAt]
  simp

/-- On an all-zero word array the slide loop only ever appends zero keys,
regardless of where the (possibly wrapped) cursor points: every extracted
character is 0 and every reload reads 0. -/
theorem slideSteps_zero_keys (n : Nat) :
    ∀ (fuel : Nat) (s : KeyState), s.key = 0 → s.block = 0 →
      (∀ x ∈ s.keys, x = 0) →
      ∀ x ∈ (slideSteps (List.replicate n 0) fuel s).keys, x = 0 := by
  intro fuel
  induction fuel with
  | zero => intro s _ _ hks; exact hks
  | succ fuel ih =>
    intro s hkey hblock hks
    have hnew : (s.key >>> N_BITS |||
        (s.block >>> (s.last_block_pos * N_BITS) &&& CHAR_MASK) <<<
          ((N_K - 1) * N_BITS) % 2 ^ KEY_BITS) = 0 := by
      rw [hkey, hblock]
      simp
    have hks2 : ∀ x ∈ s.keys ++ [s.key >>> N_BITS |||
        (s.block >>> (s.last_block_pos * N_BITS) &&& CHAR_MASK) <<<
          ((N_K - 1) * N_BITS) % 2 ^ KEY_BITS], x = 0 := by
      intro x hx
      rcases List.mem_append.mp hx with h | h
      · exact hks x h
      · rw [List.mem_singleton] at h
        rw [h]
        exact hnew
    simp only [slideSteps]
    by_cases h1 : (s.last_block_pos + 1) % 2 ^ 8 % N_PACKED_CHARS = 0
    · rw [if_pos h1]
      by_cases h2 : (List.replicate n (0 : Nat)).length < (s.last_block + 1) % 2 ^ 8
      · rw [if_pos h2]
        exact hks2
      · rw [if_neg h2]
        by_cases h3 : (s.last_block + 1) % 2 ^ 8 = (List.replicate n (0 : Nat)).length
        · rw [if_pos h3]
          exact hks2
        · rw [if_neg h3]
          exact ih _ hnew (getD_replicate_zero n ((s.last_block + 1) % 2 ^ 8)) hks2
    · rw [if_neg h1]
      exact ih _ hnew hblock hks2

/-- On the all-zero well-formed sequence of any length `L ≥ N_K`, every key
the engine writes is 0: the seed key is the zero window key, and the slide
only ever appends zeros. -/
theorem computeKeys_zero_all (L : Nat) (hL : 21 ≤ L) :
    ∀ x ∈ (computeKeys (List.replicate ((L + N_PACKED_CHARS - 1) / N_PACKED_CHARS) 0)
        (L - 21 + 1)).keys, x = 0 := by
  have hseed :
      (seedKey (List.replicate ((L + N_PACKED_CHARS - 1) / N_PACKED_CHARS) (0 : Nat))).1
        = 0 := by
    rw [seedKey_eq _ L (zero_wellFormed L) hL]
    exact zero_windowKey _ 0
  have hks0 : ∀ x ∈
      [(seedKey (List.replicate ((L + N_PACKED_CHARS - 1) / N_PACKED_CHARS) (0 : Nat))).1],
      x = 0 := by
    intro x hx
    rw [List.mem_singleton] at hx
    rw [hx]
    exact hseed
  unfold computeKeys
  exact slideSteps_zero_keys _ _ _ hseed (getD_replicate_zero _ DIV) hks0

/-- The first key `computeKeys` writes is always the seed key. -/
theorem computeKeys_first (seq : List Nat) (kc : Nat) :
    (computeKeys seq kc).keys.getD 0 0 = (seedKey seq).1 := by
  unfold computeKeys
  obtain ⟨t, ht⟩ := slideSteps_keys_grow seq (kc - 1)
    ⟨(seedKey seq).1, DIV, REM, seq.getD DIV 0, [(seedKey seq).1],
     (seedKey seq).2 || decide (seq.length ≤ DIV), false⟩
  rw [ht]
  rfl

/-- The second component of the seed phase is false whenever the array has
at least `DIV + 1 = 5` words. -/
theorem seedKey_oob_false (seq : List Nat) (hlen : 5 ≤ seq.length) :
    (seedKey seq).2 = false := by
  unfold seedKey
  rw [show List.range DIV = [0, 1, 2, 3] from rfl]
  simp only [List.foldl_cons, List.foldl_nil]
  rw [if_pos (by rw [REM_eq]; omega : (0 : Nat) < REM)]
  have hd0 : decide (seq.length ≤ 0) = false := decide_eq_false (by omega)
  have hd1 : decide (seq.length ≤ 1) = false := decide_eq_false (by omega)
  have hd2 : decide (seq.length ≤ 2) = false := decide_eq_false (by omega)
  have hd3 : decide (seq.length ≤ 3) = false := decide_eq_false (by omega)
  have hd4 : decide (seq.length ≤ DIV) = false := decide_eq_false (by rw [DIV_eq]; omega)
  rw [hd0, hd1, hd2, hd3, hd4]
  rfl

/-- The seed key depends only on the first `DIV` words and the `REM_MASK`-
masked bits of word `DIV`. -/
theorem seedKey_congr (seqA seqB : List Nat)
    (hagree : ∀ j, j < DIV → seqA.getD j 0 = seqB.getD j 0)
    (hrem : seqA.getD DIV 0 &&& REM_MASK = seqB.getD DIV 0 &&& REM_MASK) :
    (seedKey seqA).1 = (seedKey seqB).1 := by
  have h0 := hagree 0 (by rw [DIV_eq]; omega)
  have h1 := hagree 1 (by rw [DIV_eq]; omega)
  have h2 := hagree 2 (by rw [DIV_eq]; omega)
  have h3 := hagree 3 (by rw [DIV_eq]; omega)
  unfold seedKey
  rw [show List.range DIV = [0, 1, 2, 3] from rfl]
  simp only [List.foldl_cons, List.foldl_nil]
  rw [if_pos (by rw [REM_eq]; omega : (0 : Nat) < REM)]
  show (((((0 : Nat) ||| seqA.getD 0 0 <<< (0 * SIG_BITS) % 2 ^ KEY_BITS)
      ||| seqA.getD 1 0 <<< (1 * SIG_BITS) % 2 ^ KEY_BITS)
      ||| seqA.getD 2 0 <<< (2 * SIG_BITS) % 2 ^ KEY_BITS)
      ||| seqA.getD 3 0 <<< (3 * SIG_BITS) % 2 ^ KEY_BITS)
      ||| (seqA.getD DIV 0 &&& REM_MASK) <<< (DIV * SIG_BITS) % 2 ^ KEY_BITS
      = (((((0 : Nat) ||| seqB.getD 0 0 <<< (0 * SIG_BITS) % 2 ^ KEY_BITS)
      ||| seqB.getD 1 0 <<< (1 * SIG_BITS) % 2 ^ KEY_BITS)
      ||| seqB.getD 2 0 <<< (2 * SIG_BITS) % 2 ^ KEY_BITS)
      ||| seqB.getD 3 0 <<< (3 * SIG_BITS) % 2 ^ KEY_BITS)
      ||| (seqB.getD DIV 0 &&& REM_MASK) <<< (DIV * SIG_BITS) % 2 ^ KEY_BITS
  rw [h0, h1, h2, h3, hrem]

/-! ### Claim theorems for the key-encoding engine -/

set_option maxRecDepth 4000 in
/-- C1 (counterexample): the claim fails as stated.  On the well-formed
1281-character sequence `seqWrap` (257 words), invoked with
`key_count = L - N_K + 1`, the key written at window position 1260 is
`2^60` (the `uint8_t` word cursor wraps from word 255 to word 0 and
re-reads the first word) while the specified window key is 0. -/
theorem c1_window_keys_counterexample :
    wellFormed seqWrap 1281 ∧ 21 ≤ 1281 ∧
    (computeKeys seqWrap (1281 - N_K + 1)).keys.getD 1260 0 ≠ windowKey seqWrap 1260 := by
  refine ⟨seqWrap_wellFormed, by omega, ?_⟩
  have hlen : seqWrap.length = (1281 + 4) / 5 := by
    show (1 :: List.replicate 256 0).length = 257
    rw [List.length_cons, List.length_replicate]
  have hst := computeKeys_eq_st seqWrap 1281 (1281 - N_K + 1) seqWrap_wellFormed (by omega)
  have e1 : (1281 - N_K + 1) - 1 = 1258 + 2 := by rw [N_K_eq]
  rw [hst, e1, slideSteps_run seqWrap 1281 hlen 1258 1 2 (by omega) (by omega) (by omega)]
  have hst1259 : stState seqWrap (1 + 1258)
      = ⟨0, 255, 4, 0, List.map (windowKey seqWrap) (List.range 1259), false, false⟩ := by
    show (⟨windowKey seqWrap 1258, 255, 4, seqWrap.getD 255 0,
      List.map (windowKey seqWrap) (List.range 1259), false, false⟩ : KeyState) = _
    rw [seqWrap_windowKey 1258 (by omega), seqWrap_getD 255 (by omega)]
  rw [hst1259]
  have htwo : slideSteps seqWrap 2
      ⟨0, 255, 4, 0, List.map (windowKey seqWrap) (List.range 1259), false, false⟩
      = ⟨2 ^ 60, 0, 1, 1,
         (List.map (windowKey seqWrap) (List.range 1259) ++ [0]) ++ [2 ^ 60],
         false, false⟩ := rfl
  rw [htwo, seqWrap_windowKey 1260 (by omega)]
  have hlen1 : (List.map (windowKey seqWrap) (List.range 1259) ++ [0]).length = 1260 := by
    rw [List.length_append, List.length_map, List.length_range]
    rfl
  have hget : ((List.map (windowKey seqWrap) (List.range 1259) ++ [0]) ++ [2 ^ 60]).getD 1260 0
      = 2 ^ 60 := by
    rw [List.getD_eq_getElem?_getD, List.getElem?_append_right (by omega), hlen1]
    rfl
  rw [hget]
  omega

/-- C1 (amended): for every well-formed packed sequence of character length
`N_K ≤ L ≤ 1280` (so that the `uint8_t` word cursor never wraps),
`computeKeys<SCALAR>` with `key_count = L - N_K + 1` writes the keys in
strict left-to-right window order, the `j`-th key being the sum over
`i < N_K` of `character(j+i) * 2^(i*charBits)`. -/
theorem c1_window_keys_amended (seq : List Nat) (L : Nat)
    (hwf : wellFormed seq L) (hL : N_K ≤ L) (hW : L ≤ 1280) :
    (computeKeys seq (L - N_K + 1)).keys
      = (List.range (L - N_K + 1)).map (windowKey seq) := by
  rw [N_K_eq] at hL ⊢
  have e : L - 21 + 1 = L - 20 := by omega
  rw [e]
  exact (computeKeys_windows seq L hwf hL hW).1

/-- Closed witness for the amended C1 at the well-formed 21-character
sequence `[1, 2, 3, 4, 5]`. -/
theorem c1_window_keys_amended_witness :
    wellFormed [1, 2, 3, 4, 5] 21 ∧
    (computeKeys [1, 2, 3, 4, 5] (21 - N_K + 1)).keys
      = (List.range (21 - N_K + 1)).map (windowKey [1, 2, 3, 4, 5]) :=
  ⟨by decide, c1_window_keys_amended [1, 2, 3, 4, 5] 21 (by decide) (by decide) (by decide)⟩

/-- C2 (counterexample): the claim fails as stated.  On the well-formed
20-character sequence of four zero words (`L < K`, hence
`max(L - K + 1, 0) = 0`), the engine still writes one key: the seed key is
stored through the output iterator before `key_count` is ever consulted. -/
theorem c2_key_count_counterexample :
    wellFormed (List.replicate 4 0) 20 ∧
    (computeKeys (List.replicate 4 0) 0).keys.length ≠ 0 := by
  constructor
  · decide
  · show (1 : Nat) ≠ 0
    omega

/-- C2 (amended): the engine writes `max(L - N_K + 1, 1)` keys, not
`max(L - N_K + 1, 0)`: with `key_count = 0` the unconditional seed store
still writes one key; for every well-formed sequence with `L ≥ N_K` it
writes exactly `L - N_K + 1` keys (the wrapped `uint8_t` word cursor,
always below `2^8`, can never trigger a break once the array has `2^8` or
more words, so the count is unaffected at any `L`); and on the all-zero
sequence of any length `L ≥ N_K` all of the keys are 0. -/
theorem c2_key_count_amended :
    (∀ seq : List Nat, (computeKeys seq 0).keys.length = 1) ∧
    (∀ (seq : List Nat) (L : Nat), wellFormed seq L → N_K ≤ L →
      (computeKeys seq (L - N_K + 1)).keys.length = L - N_K + 1) ∧
    (∀ L : Nat, N_K ≤ L →
      (computeKeys (List.replicate ((L + N_PACKED_CHARS - 1) / N_PACKED_CHARS) 0)
          (L - N_K + 1)).keys
        = List.replicate (L - N_K + 1) 0) := by
  refine ⟨fun seq => rfl, fun seq L hwf hL => ?_, fun L hL => ?_⟩
  · rw [N_K_eq] at hL ⊢
    rw [computeKeys_length seq L hwf hL]
    omega
  · rw [N_K_eq] at hL ⊢
    rw [List.eq_replicate_iff]
    refine ⟨?_, ?_⟩
    · rw [computeKeys_length _ L (zero_wellFormed L) hL]
      omega
    · intro b hb
      exact computeKeys_zero_all L hL b hb

/-- Closed witness for the amended C2 at `L = 21` (all-zero sequence) and at
the singleton-word array with `key_count = 0`. -/
theorem c2_key_count_amended_witness :
    (computeKeys [9] 0).keys.length = 1 ∧
    (computeKeys (List.replicate ((21 + N_PACKED_CHARS - 1) / N_PACKED_CHARS) 0)
        (21 - N_K + 1)).keys = List.replicate (21 - N_K + 1) 0 :=
  ⟨c2_key_count_amended.1 [9], c2_key_count_amended.2.2 21 (by decide)⟩

/-- C4 (counterexample): the claim fails as stated.  On the empty word
array the seed phase reads `seq[0] .. seq[DIV]` without any bounds check,
so an out-of-bounds access is recorded even though `seq.size() = 0`. -/
theorem c4_no_oob_counterexample :
    (computeKeys ([] : List Nat) 1).oob = true := by decide

/-- C4 (amended): for every word array of at least `DIV + 1 = 5` words and
every `key_count` (including mismatched ones), `computeKeys<SCALAR>` never
reads an element at an index `≥ seq.size()`: the slide loop's cursor checks
report the condition and break, leaving the remaining positions unwritten
(at most `max(key_count, 1)` keys are ever written).  The unguarded seed
reads make the 5-word minimum necessary. -/
theorem c4_no_oob_amended (seq : List Nat) (kc : Nat) (hlen : DIV + 1 ≤ seq.length) :
    (computeKeys seq kc).oob = false ∧
    (computeKeys seq kc).keys.length ≤ max kc 1 := by
  rw [DIV_eq] at hlen
  constructor
  · show (computeKeys seq kc).oob = false
    unfold computeKeys
    rw [slideSteps_oob]
    show ((seedKey seq).2 || decide (seq.length ≤ DIV)) = false
    rw [seedKey_oob_false seq (by omega),
      decide_eq_false (by rw [DIV_eq]; omega : ¬ seq.length ≤ DIV)]
    rfl
  · unfold computeKeys
    have h := slideSteps_keys_len seq (kc - 1)
      ⟨(seedKey seq).1, DIV, REM, seq.getD DIV 0, [(seedKey seq).1],
       (seedKey seq).2 || decide (seq.length ≤ DIV), false⟩
    simp only [List.length_singleton] at h
    omega

/-- Closed witness for the amended C4 at a 5-word array with an oversized
`key_count`. -/
theorem c4_no_oob_amended_witness :
    (computeKeys (List.replicate 5 0) 500).oob = false ∧
    (computeKeys (List.replicate 5 0) 500).keys.length ≤ max 500 1 :=
  c4_no_oob_amended (List.replicate 5 0) 500 (by decide)

/-- C8 (counterexample): the claim fails as stated.  The arrays
`[0,0,0,0,0]` and `[2^15,0,0,0,0]` agree on every significant
(`PADDING_MASK`-covered) bit of all five words and differ only in the
padding bit of word 0, yet the seed keys (the first key written) differ:
the seed phase concatenates the whole words without masking. -/
theorem c8_seed_masking_counterexample :
    (∀ j, j < 5 →
      (List.replicate 5 0).getD j 0 &&& PADDING_MASK
        = (2 ^ 15 :: List.replicate 4 0).getD j 0 &&& PADDING_MASK) ∧
    (List.replicate 5 0).length = (2 ^ 15 :: List.replicate 4 0).length ∧
    (computeKeys (List.replicate 5 0) 1).keys.getD 0 0
      ≠ (computeKeys (2 ^ 15 :: List.replicate 4 0) 1).keys.getD 0 0 := by
  refine ⟨by decide, by decide, by decide⟩

/-- C8 (amended): the seed computation masks only the final remainder word
(with `REM_MASK`); it is insensitive to the unused high bits of that word,
but relies on the padding bits of the first `DIV` whole words being zero.
Two arrays that agree exactly on the first `DIV` words and on the
`REM_MASK` bits of word `DIV` produce the same first (seed) key. -/
theorem c8_seed_masking_amended (seqA seqB : List Nat) (kc : Nat)
    (hagree : ∀ j, j < DIV → seqA.getD j 0 = seqB.getD j 0)
    (hrem : seqA.getD DIV 0 &&& REM_MASK = seqB.getD DIV 0 &&& REM_MASK) :
    (computeKeys seqA kc).keys.getD 0 0 = (computeKeys seqB kc).keys.getD 0 0 := by
  rw [computeKeys_first, computeKeys_first]
  exact seedKey_congr seqA seqB hagree hrem

/-- Closed witness for the amended C8: two arrays agreeing on the first four
words and on the low 3 bits of word 4 yield the same first key. -/
theorem c8_seed_masking_amended_witness :
    (computeKeys [1, 2, 3, 4, 5, 99] 3).keys.getD 0 0
      = (computeKeys [1, 2, 3, 4, 13, 11] 3).keys.getD 0 0 :=
  c8_seed_masking_amended [1, 2, 3, 4, 5, 99] [1, 2, 3, 4, 13, 11] 3
    (by decide) (by decide)

/-! ### Claim theorems for the offset prefix sum -/

/-- C3 (counterexample): the claim fails as stated.  A unit of length 1 with
`K = 3` does not contribute zero keys: the signed count `-1` is cast to the
unsigned 64-bit accumulator, so `offsets[1] = 2^64 - 1`; with two such units
the offsets array even decreases. -/
theorem c3_offsets_counterexample :
    scanKeyCounts [1] 3 = [0, 2 ^ 64 - 1] ∧ (2 ^ 64 - 1 : Nat) ≠ 0 ∧
    (scanKeyCounts [1, 1] 3).getD 2 0 < (scanKeyCounts [1, 1] 3).getD 1 0 := by
  refine ⟨by decide, by decide, by decide⟩

/-- C3 (amended): `offsets[0] = 0` and `offsets[i]` is the sum of the
per-unit key counts `length[j] - K + 1` for `j < i`, and the array is
non-decreasing, provided no per-unit count underflows (every length is at
least `K - 1`) and the total fits in 64 bits; the wrapped cast makes a unit
of length `K - 1` (but not shorter) contribute zero.  For lengths
`[10, 5, 2]` and `K = 3` the offsets are `[0, 8, 11, 11]`. -/
theorem c3_offsets_amended :
    (∀ (lengths : List Nat) (nK : Nat),
      (∀ l ∈ lengths, nK ≤ l + 1) →
      (Finset.sum (Finset.range lengths.length) fun j => lengths.getD j 0 + 1 - nK)
        < 2 ^ 64 →
      scanKeyCounts lengths nK
        = (List.range (lengths.length + 1)).map
            (fun i => Finset.sum (Finset.range i) fun j => lengths.getD j 0 + 1 - nK) ∧
      List.Chain' (fun a b => a ≤ b) (scanKeyCounts lengths nK)) ∧
    scanKeyCounts [10, 5, 2] 3 = [0, 8, 11, 11] := by
  refine ⟨fun lengths nK hall hfit => scanKeyCounts_exact lengths nK hall hfit, by decide⟩

/-- Closed witness for the amended C3 at lengths `[30]` with `K = 21`. -/
theorem c3_offsets_amended_witness : scanKeyCounts [30] 21 = [0, 10] := by
  have h := (c3_offsets_amended.1 [30] 21 (by decide) (by decide)).1
  rw [h]
  decide

/-- Submitting the tasks `0, ..., M-1` through `addTask` to a fresh open
queue and then calling `disableAdd` leaves a draining queue holding exactly
those `M` tasks. -/
theorem addTask_all_then_disableAdd (M : Nat) :
    disableAdd ((List.range M).foldl (fun q t => (addTask q t).1) ⟨[], true⟩)
      = ⟨List.range M, false⟩ := by
  have hfold : ∀ (l acc : List Nat),
      l.foldl (fun q t => (addTask q t).1) ⟨acc, true⟩ = ⟨acc ++ l, true⟩ := by
    intro l
    induction l with
    | nil => intro acc; simp
    | cons x xs ih =>
      intro acc
      show xs.foldl (fun q t => (addTask q t).1) ⟨acc ++ [x], true⟩ = _
      rw [ih (acc ++ [x])]
      simp
  have h := hfold (List.range M) []
  rw [show ([] : List Nat) ++ List.range M = List.range M by simp] at h
  rw [h]
  rfl

theorem bumpProc_sum (l : List Nat) : ∀ i, i < l.length →
    (bumpProc l i).sum = l.sum + 1 := by
  induction l with
  | nil => intro i hi; simp at hi
  | cons x xs ih =>
    intro i hi
    cases i with
    | zero =>
      show ((x + 1) :: xs).sum = (x :: xs).sum + 1
      simp
      omega
    | succ i =>
      show (x :: bumpProc xs i).sum = (x :: xs).sum + 1
      have := ih i (by simpa using hi)
      simp only [List.sum_cons]
      omega

theorem runnerInv_init (nThreads M : Nat) (g : List Nat) (hg : g.length = nThreads) :
    RunnerInv nThreads M g (initState M g) := by
  refine ⟨rfl, hg, 0, by omega, by simp [initState], fun t => by simp [initState],
    by simp [sumProc, initState], ?_⟩
  intro h
  simp [initState] at h

theorem runnerInv_step (nThreads M : Nat) (g : List Nat) (s s' : RunnerState)
    (hstep : Step nThreads s s') (hinv : RunnerInv nThreads M g s) :
    RunnerInv nThreads M g s' := by
  obtain ⟨hpe, hpl, k, hkM, hitems, hexec, hsum, hempty⟩ := hinv
  cases hstep with
  | spawn hl hc =>
    exact ⟨hpe, hpl, k, hkM, hitems, hexec, hsum, fun h => by simp at h⟩
  | loopExit hl hc =>
    refine ⟨hpe, hpl, k, hkM, hitems, hexec, hsum, fun _ => ?_⟩
    show s.q.items = []
    unfold TSQueue.canPop at hc
    rw [hpe] at hc
    simpa using hc
  | workPop tid t rest htid hpend hhead =>
    have hkM' : k < M := by
      by_contra hge
      have hnil : (List.range M).drop k = [] :=
        List.drop_eq_nil_of_le (by simp only [List.length_range]; omega)
      rw [hitems, hnil] at hhead
      exact absurd hhead (by simp)
    have hk : k < (List.range M).length := by simpa using hkM'
    have hdrop : (List.range M).drop k = k :: (List.range M).drop (k + 1) := by
      rw [List.drop_eq_getElem_cons hk]
      simp
    have hcons : t :: rest = k :: (List.range M).drop (k + 1) := by
      rw [← hhead, hitems, hdrop]
    have hteq : t = k := by
      injection hcons
    have hrest : rest = (List.range M).drop (k + 1) := by
      injection hcons with h1 h2
    refine ⟨hpe, ?_, k + 1, by omega, ?_, ?_, ?_, ?_⟩
    · show (bumpProc s.proc tid).length = nThreads
      unfold bumpProc
      simp [hpl]
    · show rest = (List.range M).drop (k + 1)
      exact hrest
    · intro u
      show bumpExec s.execCount t u = if u < k + 1 then 1 else 0
      unfold bumpExec
      rcases eq_or_ne u t with he | hne
      · subst he
        rw [if_pos rfl, hexec u, hteq]
        simp
      · rw [if_neg hne, hexec u]
        have hu : u ≠ k := by rw [← hteq]; exact hne
        rcases Nat.lt_or_ge u k with hlt | hge
        · rw [if_pos hlt, if_pos (by omega)]
        · rw [if_neg (by omega), if_neg (by omega)]
    · show (bumpProc s.proc tid).sum = g.sum + (k + 1)
      rw [bumpProc_sum s.proc tid (by omega)]
      unfold sumProc at hsum
      omega
    · intro h
      have hl0 : s.loopActive = false := h
      have h2 := hempty hl0
      rw [hhead] at h2
      exact absurd h2 (by simp)
  | workEmpty hpend hemp hpee =>
    exact ⟨hpe, hpl, k, hkM, hitems, hexec, hsum, hempty⟩

theorem runnerInv_reachable (nThreads M : Nat) (g : List Nat) (s : RunnerState)
    (hg : g.length = nThreads)
    (hreach : Reachable nThreads (initState M g) s) :
    RunnerInv nThreads M g s := by
  induction hreach with
  | refl => exact runnerInv_init nThreads M g hg
  | tail hab hbc ih => exact runnerInv_step nThreads M g _ _ hbc ih

/-- Exactly-once execution and the final counter sum: in every completed run
of the scheduler on `M` accepted tasks, each task ran exactly once, no other
task ran, and the counters sum to their initial (uninitialised) sum plus
`M`. -/
theorem runner_exactly_once (nThreads M : Nat) (g : List Nat) (s : RunnerState)
    (hg : g.length = nThreads)
    (hreach : Reachable nThreads (initState M g) s)
    (hterm : Terminal s) :
    (∀ t, t < M → s.execCount t = 1) ∧
    (∀ t, M ≤ t → s.execCount t = 0) ∧
    sumProc s = g.sum + M := by
  obtain ⟨hpe, hpl, k, hkM, hitems, hexec, hsum, hempty⟩ :=
    runnerInv_reachable nThreads M g s hg hreach
  have hkM' : k = M := by
    have h1 := hempty hterm.1
    rw [hitems] at h1
    rw [List.drop_eq_nil_iff] at h1
    simp at h1
    omega
  subst hkM'
  refine ⟨fun t ht => ?_, fun t ht => ?_, hsum⟩
  · rw [hexec t, if_pos ht]
  · rw [hexec t, if_neg (by omega)]

/-- C9 (code bug): the per-worker counter array is allocated with
`new size_t[nThreads]` and never initialised, so the sum reported after the
run is the task count plus whatever garbage the allocation contained.  Here
a complete run of the scheduler with `M = 0` submitted tasks on one worker
whose counter word happened to start at 5 terminates with counter sum 5,
not 0 (in general, `runner_exactly_once` shows every accepted task runs
exactly once and the final sum is `g.sum + M` for initial contents `g`). -/
theorem c9_uninitialized_proc_counters :
    Reachable 1 (initState 0 [5]) ⟨⟨[], false⟩, 0, false, [5], fun _ => 0⟩ ∧
    Terminal ⟨⟨[], false⟩, 0, false, [5], fun _ => 0⟩ ∧
    sumProc ⟨⟨[], false⟩, 0, false, [5], fun _ => 0⟩ = 5 ∧ (5 : Nat) ≠ 0 := by
  refine ⟨?_, ⟨rfl, rfl⟩, rfl, by omega⟩
  exact Relation.ReflTransGen.single (Step.loopExit (initState 0 [5]) rfl rfl)

end BLISS
